import Mathlib

/-!
Verification of the Slimline Tactical core (grid model, combat resolver,
turn scheduler) against its design specification.  The game code is embedded
shallowly: tiles, units and the grid become Lean structures, the arithmetic
of hit chances uses exact rationals, and the BFS loops become fuel-indexed
structural recursions whose fuel provably suffices for the grids they run on.
-/

namespace WWA

/-- Grid position, mirroring the `{col, row}` objects of the source. -/
structure Pos where
  col : Int
  row : Int
deriving DecidableEq, Repr

/-- Cover tiers of a tile; `blocked` is the distinct marker `checkLOS` reports
when line of sight is obstructed (the source uses the strings
`'none' | 'half' | 'full' | 'blocked'`). -/
inductive CoverType where
  | cnone
  | half
  | full
  | blocked
deriving DecidableEq, Repr

/-- Per-tile data from `GridManager`'s constructor: walkability flag, cover
tier, placed object id and occupant id.  Rendering-only fields
(`objectMesh`, highlight state) are omitted. -/
structure TileData where
  walkable : Bool
  coverType : CoverType
  objectType : Option String
  occupant : Option String
deriving DecidableEq, Repr

/-- The tile grid: dimensions plus the tile table `tiles[col][row]`,
modelled as a total function (out-of-bounds access is guarded by
`getTile`, as in the source). -/
structure Grid where
  gridWidth : Int
  gridHeight : Int
  tiles : Int → Int → TileData

/-- JavaScript truthiness of the `objectType` field (a string or `null`;
the empty string is falsy). -/
def objTruthy : Option String → Bool
  | none => false
  | some s => !(s == "")

/-- `GridManager.getTile`: bounds-checked tile access. -/
def getTile (g : Grid) (col row : Int) : Option TileData :=
  if col < 0 ∨ g.gridWidth ≤ col ∨ row < 0 ∨ g.gridHeight ≤ row then none
  else some (g.tiles col row)

/-- `GridManager.isWalkable`: in bounds, walkable flag set, no occupant. -/
def isWalkable (g : Grid) (col row : Int) : Bool :=
  match getTile g col row with
  | none => false
  | some t => t.walkable && t.occupant.isNone

/-- `GridManager.isWalkableIgnoreOccupant`: in bounds and walkable flag set. -/
def isWalkableIgnoreOccupant (g : Grid) (col row : Int) : Bool :=
  match getTile g col row with
  | none => false
  | some t => t.walkable

/-- `GridManager.clearOccupant`: clear the occupant of an in-bounds tile. -/
def clearOccupant (g : Grid) (col row : Int) : Grid :=
  match getTile g col row with
  | none => g
  | some _ =>
      { g with tiles := fun c r =>
          if c = col ∧ r = row then { g.tiles col row with occupant := none }
          else g.tiles c r }

/-- `tileDistance` from utils: Chebyshev distance. -/
def tileDistance (a b : Pos) : Int :=
  max |a.col - b.col| |a.row - b.row|

/-- `getNeighbors` from utils: the up-to-8 in-bounds neighbours, in the
source's enumeration order (`dc` outer loop, `dr` inner loop). -/
def getNeighbors (col row gridWidth gridHeight : Int) : List Pos :=
  let deltas : List (Int × Int) :=
    [(-1, -1), (-1, 0), (-1, 1), (0, -1), (0, 1), (1, -1), (1, 0), (1, 1)]
  deltas.filterMap fun d =>
    let nc := col + d.1
    let nr := row + d.2
    if 0 ≤ nc ∧ nc < gridWidth ∧ 0 ≤ nr ∧ nr < gridHeight then some ⟨nc, nr⟩ else none

/-- `getTileDirection` from utils: componentwise sign of the displacement. -/
def getTileDirection (fromPos toPos : Pos) : Pos :=
  let dx := toPos.col - fromPos.col
  let dy := toPos.row - fromPos.row
  ⟨if dx = 0 then 0 else if 0 < dx then 1 else -1,
   if dy = 0 then 0 else if 0 < dy then 1 else -1⟩

/-- Loop body of `bresenhamLine`; the fuel bounds the iteration count, and
`|dx| + |dy|` iterations always reach the endpoint. -/
def bresenhamAux (x1 y1 dx dy sx sy : Int) : ℕ → Int → Int → Int → List Pos
  | 0, _, _, _ => []
  | fuel + 1, x0, y0, err =>
      if x0 = x1 ∧ y0 = y1 then []
      else
        let e2 := 2 * err
        let xa := if -dy < e2 then x0 + sx else x0
        let erra := if -dy < e2 then err - dy else err
        let ya := if e2 < dx then y0 + sy else y0
        let errb := if e2 < dx then erra + dx else erra
        ⟨xa, ya⟩ :: bresenhamAux x1 y1 dx dy sx sy fuel xa ya errb

/-- `bresenhamLine` from utils: tiles a straight ray crosses from `start`
to `endp`, excluding `start` and including `endp`. -/
def bresenhamLine (start endp : Pos) : List Pos :=
  let dx := |endp.col - start.col|
  let dy := |endp.row - start.row|
  let sx : Int := if start.col < endp.col then 1 else -1
  let sy : Int := if start.row < endp.row then 1 else -1
  bresenhamAux endp.col endp.row dx dy sx sy (dx + dy).toNat start.col start.row (dx - dy)

/-- `clamp` from utils. -/
def clamp (value minv maxv : ℚ) : ℚ :=
  max minv (min maxv value)

/-! Combat constants (`CONSTANTS` in `shared/constants.js`). -/

def STATS_hp : Int := 10
def STATS_ap : Int := 2
def STATS_movement : ℕ := 4
def STATS_rangedDamage : Int := 4
def STATS_meleeDamage : Int := 5
def STATS_rangedAccuracy : ℚ := 70 / 100
def STATS_meleeAccuracy : ℚ := 85 / 100
def STATS_rangedRange : Int := 8
def STATS_meleeRange : Int := 1
def COVER_BONUS_half : ℚ := -25 / 100
def COVER_BONUS_full : ℚ := -50 / 100
def FLANKING_BONUS : ℚ := 15 / 100
def MIN_HIT_CHANCE : ℚ := 5 / 100
def MAX_HIT_CHANCE : ℚ := 95 / 100
def OVERWATCH_range : Int := 8

/-- Result record of `GridManager.getCoverBetween`. -/
structure CoverResult where
  coverType : CoverType
  penalty : ℚ
deriving DecidableEq, Repr

/-- Result record of `GridManager.checkLOS`. -/
structure LOSResult where
  clear : Bool
  coverPenalty : ℚ
  coverType : CoverType
deriving DecidableEq, Repr

/-- Accumulator step of `getCoverBetween`'s candidate scan: keep the cover
with the strongest (largest absolute) penalty seen so far. -/
def coverScanStep (g : Grid) (acc : CoverType × ℚ) (pos : Pos) : CoverType × ℚ :=
  match getTile g pos.col pos.row with
  | none => acc
  | some t =>
      if t.coverType = CoverType.full ∧ objTruthy t.objectType = true then
        if |COVER_BONUS_full| > |acc.2| then (CoverType.full, COVER_BONUS_full) else acc
      else if t.coverType = CoverType.half ∧ objTruthy t.objectType = true then
        if |COVER_BONUS_half| > |acc.2| then (CoverType.half, COVER_BONUS_half) else acc
      else acc

/-- `GridManager.getCoverBetween`: cover protecting `targetTile` from the
direction of `attackerTile`, taken as the best cover among the up to three
adjacent candidate tiles on the attacker's side. -/
def getCoverBetween (g : Grid) (attackerTile targetTile : Pos) : CoverResult :=
  let dir := getTileDirection attackerTile targetTile
  let checkPositions : List Pos :=
    (if dir.col ≠ 0 then [⟨targetTile.col - dir.col, targetTile.row⟩] else []) ++
    (if dir.row ≠ 0 then [⟨targetTile.col, targetTile.row - dir.row⟩] else []) ++
    (if dir.col ≠ 0 ∧ dir.row ≠ 0 then
      [⟨targetTile.col - dir.col, targetTile.row - dir.row⟩] else [])
  let best := checkPositions.foldl (coverScanStep g) (CoverType.cnone, 0)
  ⟨best.1, best.2⟩

/-- Whether a traced line tile blocks line of sight in `checkLOS`: it is not
the target tile itself, it is in bounds, and it carries full cover with a
placed object. -/
def losBlockedAt (g : Grid) (toCol toRow : Int) (lt : Pos) : Bool :=
  !(lt.col == toCol && lt.row == toRow) &&
  (match getTile g lt.col lt.row with
   | none => false
   | some t => t.coverType == CoverType.full && objTruthy t.objectType)

/-- `GridManager.checkLOS`: trace the Bresenham line and report either a
blocked result or clear LOS with the target's directional cover. -/
def checkLOS (g : Grid) (fromCol fromRow toCol toRow : Int) : LOSResult :=
  let lineTiles := bresenhamLine ⟨fromCol, fromRow⟩ ⟨toCol, toRow⟩
  if lineTiles.any (losBlockedAt g toCol toRow) then
    { clear := false, coverPenalty := 0, coverType := CoverType.blocked }
  else
    let coverResult := getCoverBetween g ⟨fromCol, fromRow⟩ ⟨toCol, toRow⟩
    { clear := true, coverPenalty := coverResult.penalty,
      coverType := coverResult.coverType }

/-- `GridManager.checkFlanking`: the attacker flanks when the dot product of
the target's facing with the target→attacker direction is not positive. -/
def checkFlanking (attackerTile targetTile : Pos)
    (targetFacing : Option Pos) : Bool :=
  match targetFacing with
  | none => false
  | some facing =>
      let toAttacker := getTileDirection targetTile attackerTile
      decide (facing.col * toAttacker.col + facing.row * toAttacker.row ≤ 0)

/-! Units and game state (`UnitManager` in `js/game/input.js`). -/

/-- Unit status strings from `CONSTANTS.UNIT_STATUS`. -/
inductive UnitStatus where
  | ready
  | activated
  | overwatch
  | hunkered
  | dead
deriving DecidableEq, Repr

/-- Simulation-relevant fields of a unit object built by
`UnitManager.createUnit` (model/animation fields omitted). -/
structure Unit where
  id : String
  faction : String
  tile : Pos
  hp : Int
  maxHp : Int
  ap : Int
  maxAp : Int
  activated : Bool
  alive : Bool
  status : UnitStatus
  facing : Pos
  overwatchCone : Option Pos
deriving DecidableEq, Repr

/-- The shared game-session state consulted by the combat system. -/
structure GameState where
  playerFaction : String
  aiFaction : String
  units : List Unit
  grid : Grid

/-- `UnitManager.getAliveUnits`. -/
def getAliveUnits (units : List Unit) (factionId : String) : List Unit :=
  units.filter fun u => u.faction == factionId && u.alive

/-- `UnitManager.getUnactivatedUnits`. -/
def getUnactivatedUnits (units : List Unit) (factionId : String) : List Unit :=
  units.filter fun u => u.faction == factionId && u.alive && !u.activated

/-- `UnitManager.applyDamage`: clamp hp at zero and report whether the unit
was killed. -/
def applyDamage (u : Unit) (damage : Int) : Unit × Bool :=
  let u1 := { u with hp := max 0 (u.hp - damage) }
  (u1, decide (u1.hp ≤ 0))

/-- `UnitManager.setUnitDead`: mark the unit dead and clear its tile's
occupant (animation and visual dimming omitted). -/
def setUnitDead (g : Grid) (u : Unit) : Grid × Unit :=
  let u1 := { u with alive := false, status := UnitStatus.dead, hp := 0 }
  (clearOccupant g u1.tile.col u1.tile.row, u1)

/-- `UnitManager.resetActivations`, restricted to a single unit: living units
get `activated := false`, full AP, and Overwatch/Hunkered cleared to Ready. -/
def resetActivationsUnit (u : Unit) : Unit :=
  if !u.alive then u
  else
    let u1 := { u with activated := false, ap := u.maxAp }
    if u1.status = UnitStatus.overwatch ∨ u1.status = UnitStatus.hunkered then
      { u1 with status := UnitStatus.ready, overwatchCone := none }
    else u1

/-- `UnitManager.resetActivations` over the unit list. -/
def resetActivations (units : List Unit) : List Unit :=
  units.map resetActivationsUnit

/-! Combat system (`CombatSystem` in the source). -/

/-- Attack type argument of the combat functions (`'ranged' | 'melee'`). -/
inductive AttackType where
  | ranged
  | melee
deriving DecidableEq, Repr

/-- The structured hit-chance breakdown object; fields absent from the
JavaScript object are `none`. -/
structure Breakdown where
  base : Option ℚ
  coverPenalty : Option ℚ
  coverType : Option CoverType
  hunkeredPenalty : Option ℚ
  flankingBonus : Option ℚ
  rangePenalty : Option ℚ
  damage : Option Int
  final : Option ℚ
deriving DecidableEq, Repr

/-- The empty breakdown `{}`. -/
def Breakdown.empty : Breakdown :=
  ⟨none, none, none, none, none, none, none, none⟩

/-- `CombatSystem.calculateHitChance`: accuracy modified by cover, the
hunkered cover doubling, flanking and the near-max-range penalty, clamped to
`[MIN_HIT_CHANCE, MAX_HIT_CHANCE]`, together with the breakdown. -/
def calculateHitChance (g : Grid) (attacker target : Unit)
    (attackType : AttackType) : ℚ × Breakdown :=
  match attackType with
  | AttackType.ranged =>
      let chance0 := STATS_rangedAccuracy
      let los := checkLOS g attacker.tile.col attacker.tile.row
        target.tile.col target.tile.row
      let coverApplied := los.coverPenalty ≠ 0
      let chance1 := if coverApplied then chance0 + los.coverPenalty else chance0
      let hunkApplied :=
        target.status = UnitStatus.hunkered ∧ los.coverPenalty ≠ 0
      let chance2 := if hunkApplied then chance1 + los.coverPenalty else chance1
      let flank := checkFlanking attacker.tile target.tile (some target.facing)
      let chance3 := if flank = true then chance2 + FLANKING_BONUS else chance2
      let dist := tileDistance attacker.tile target.tile
      let nearMax := STATS_rangedRange - 1 ≤ dist
      let chance4 := if nearMax then chance3 + (-5 / 100) else chance3
      let chance := clamp chance4 MIN_HIT_CHANCE MAX_HIT_CHANCE
      (chance,
       { base := some STATS_rangedAccuracy
         coverPenalty := if coverApplied then some los.coverPenalty else none
         coverType := if coverApplied then some los.coverType else none
         hunkeredPenalty := if hunkApplied then some los.coverPenalty else none
         flankingBonus := if flank = true then some FLANKING_BONUS else none
         rangePenalty := if nearMax then some (-5 / 100) else none
         damage := some STATS_rangedDamage
         final := some chance })
  | AttackType.melee =>
      let chance0 := STATS_meleeAccuracy
      let flank := checkFlanking attacker.tile target.tile (some target.facing)
      let chance1 := if flank = true then chance0 + FLANKING_BONUS else chance0
      let chance := clamp chance1 MIN_HIT_CHANCE MAX_HIT_CHANCE
      (chance,
       { Breakdown.empty with
          base := some STATS_meleeAccuracy
          flankingBonus := if flank = true then some FLANKING_BONUS else none
          damage := some STATS_meleeDamage
          final := some chance })

/-- Result of `CombatSystem.executeAttack`: the mutated attacker, target and
grid plus the `{ hit, damage, killed }` record it returns. -/
structure AttackOutcome where
  attacker : Unit
  target : Unit
  grid : Grid
  hit : Bool
  damage : Int
  killed : Bool

/-- State effects of `CombatSystem.executeAttack` with the uniform random
roll passed explicitly: hit iff `roll ≤ chance`; on hit apply per-type
damage, and on a kill mark the target dead and clear its tile; always deduct
one attacker AP, clamped at zero.  Camera, VFX and animation steps are
omitted. -/
def executeAttack (g : Grid) (attacker target : Unit) (attackType : AttackType)
    (roll : ℚ) : AttackOutcome :=
  let chance := (calculateHitChance g attacker target attackType).1
  let hit := decide (roll ≤ chance)
  if hit then
    let damage := if attackType = AttackType.ranged then STATS_rangedDamage
      else STATS_meleeDamage
    let dres := applyDamage target damage
    let killed := dres.2
    let after := if killed then setUnitDead g dres.1 else (g, dres.1)
    let attacker1 := { attacker with ap := max 0 (attacker.ap - 1) }
    { attacker := attacker1, target := after.2, grid := after.1,
      hit := true, damage := damage, killed := killed }
  else
    let attacker1 := { attacker with ap := max 0 (attacker.ap - 1) }
    { attacker := attacker1, target := target, grid := g,
      hit := false, damage := 0, killed := false }

/-- Trigger test applied to each living enemy by `CombatSystem.checkOverwatch`:
status Overwatch, destination within overwatch range, clear LOS to the
destination, and (when a cone is recorded) the watcher→destination vector
not behind the cone direction. -/
def overwatchTriggerCheck (g : Grid) (toTile : Pos) (enemy : Unit) : Bool :=
  enemy.status == UnitStatus.overwatch &&
  decide (tileDistance enemy.tile toTile ≤ OVERWATCH_range) &&
  (checkLOS g enemy.tile.col enemy.tile.row toTile.col toTile.row).clear &&
  (match enemy.overwatchCone with
   | none => true
   | some cone =>
       let dx := toTile.col - enemy.tile.col
       let dz := toTile.row - enemy.tile.row
       let facingDot := dx * cone.col + dz * cone.row
       !(decide (facingDot < 0)))

/-- `CombatSystem.checkOverwatch`: the living enemies of the mover whose
overwatch triggers on a step ending at `toTile`. -/
def checkOverwatch (st : GameState) (movingUnit : Unit)
    (fromTile toTile : Pos) : List Unit :=
  let enemyFaction := if movingUnit.faction == st.playerFaction
    then st.aiFaction else st.playerFaction
  let enemies := getAliveUnits st.units enemyFaction
  enemies.filter (overwatchTriggerCheck st.grid toTile)

/-- `CombatSystem.setOverwatch`: status Overwatch, snapshot the facing as the
cone, deduct one AP. -/
def setOverwatch (u : Unit) : Unit :=
  { u with status := UnitStatus.overwatch,
           overwatchCone := some u.facing,
           ap := max 0 (u.ap - 1) }

/-- `CombatSystem.setHunker`: status Hunkered, deduct one AP. -/
def setHunker (u : Unit) : Unit :=
  { u with status := UnitStatus.hunkered, ap := max 0 (u.ap - 1) }

/-- Effect of `CombatSystem.executeOverwatchShot` on the watcher: perform the
ranged attack, then return to Activated and clear the cone. -/
def executeOverwatchShotWatcher (g : Grid) (overwatchUnit triggerUnit : Unit)
    (roll : ℚ) : Unit :=
  let result := executeAttack g overwatchUnit triggerUnit AttackType.ranged roll
  { result.attacker with status := UnitStatus.activated, overwatchCone := none }

/-- AP deduction step of `TurnManager.onPlayerMoveClick` (the move command):
`unit.ap = Math.max(0, unit.ap - 1)`. -/
def onPlayerMoveDeductAp (u : Unit) : Unit :=
  { u with ap := max 0 (u.ap - 1) }

/-! Movement range (`GridManager.getMovementRange`). -/

/-- Queue entry of the movement-range BFS: `{ col, row, cost }`. -/
structure QEntry where
  col : Int
  row : Int
  cost : ℕ
deriving DecidableEq, Repr

/-- Position of a BFS queue entry. -/
def QEntry.pos (e : QEntry) : Pos := ⟨e.col, e.row⟩

/-- Diagonal corner-cut guard of `getMovementRange`: a diagonal step is
allowed only when both cardinal tiles flanking it are walkable ignoring
occupants. -/
def moveRangeDiagonalOK (g : Grid) (cur : Pos) (dc dr : Int) : Bool :=
  if dc ≠ 0 ∧ dr ≠ 0 then
    isWalkableIgnoreOccupant g (cur.col + dc) cur.row &&
    isWalkableIgnoreOccupant g cur.col (cur.row + dr)
  else true

/-- Neighbour-processing step of the movement-range BFS: skip visited,
non-walkable, or corner-cutting neighbours; otherwise mark visited and
enqueue at cost + 1. -/
def bfsVisit (g : Grid) (current : QEntry) (acc : Finset Pos × List QEntry)
    (n : Pos) : Finset Pos × List QEntry :=
  if n ∈ acc.1 then acc
  else if isWalkable g n.col n.row = false then acc
  else if moveRangeDiagonalOK g current.pos (n.col - current.col)
      (n.row - current.row) = false then acc
  else (insert n acc.1, acc.2 ++ [⟨n.col, n.row, current.cost + 1⟩])

/-- Main loop of `getMovementRange`: pop an entry, record it when its cost is
positive, and expand its neighbours unless it sits at the movement limit.
The fuel argument bounds the iteration count; the wrapper passes enough fuel
for the loop to drain its queue. -/
def bfsAux (g : Grid) (moveRange : ℕ) : ℕ → List QEntry → Finset Pos → List QEntry
  | 0, _, _ => []
  | _ + 1, [], _ => []
  | fuel + 1, current :: rest, visited =>
      let tailOut :=
        if moveRange ≤ current.cost then bfsAux g moveRange fuel rest visited
        else
          let st := (getNeighbors current.col current.row g.gridWidth
            g.gridHeight).foldl (bfsVisit g current) (visited, [])
          bfsAux g moveRange fuel (rest ++ st.2) st.1
      if 0 < current.cost then current :: tailOut else tailOut

/-- The finite set of in-bounds positions of a grid. -/
def boundsFinset (g : Grid) : Finset Pos :=
  ((Finset.Ico 0 g.gridWidth) ×ˢ (Finset.Ico 0 g.gridHeight)).image
    fun p => ⟨p.1, p.2⟩

/-- `GridManager.getMovementRange`: BFS flood fill from the start tile,
returning every reached tile with its step cost. -/
def getMovementRange (g : Grid) (startCol startRow : Int) (moveRange : ℕ) :
    List QEntry :=
  bfsAux g moveRange ((boundsFinset g).card + 2)
    [⟨startCol, startRow, 0⟩] {⟨startCol, startRow⟩}

/-! Pathfinding (`GridManager._findPathBFS`). -/

/-- Diagonal corner-cut guard of `_findPathBFS`; the source repeats the
movement-range check verbatim. -/
def findPathDiagonalOK (g : Grid) (cur : Pos) (dc dr : Int) : Bool :=
  if dc ≠ 0 ∧ dr ≠ 0 then
    isWalkableIgnoreOccupant g (cur.col + dc) cur.row &&
    isWalkableIgnoreOccupant g cur.col (cur.row + dr)
  else true

/-- Neighbour loop of `_findPathBFS` around one popped tile: returns the
updated visited set, parent map, queue additions, and whether the
destination was just reached (the inner `break`). -/
def visitNeighbors (g : Grid) (endPos : Pos) (allowOcc : Bool) (current : Pos) :
    List Pos → Finset Pos → List (Pos × Pos) → List Pos →
    Finset Pos × List (Pos × Pos) × List Pos × Bool
  | [], visited, cameFrom, adds => (visited, cameFrom, adds, false)
  | n :: rest, visited, cameFrom, adds =>
      if n ∈ visited then
        visitNeighbors g endPos allowOcc current rest visited cameFrom adds
      else
        let isDestination := n = endPos
        let walkable := if isDestination ∧ allowOcc = true then
            isWalkableIgnoreOccupant g n.col n.row
          else isWalkable g n.col n.row
        if walkable = false then
          visitNeighbors g endPos allowOcc current rest visited cameFrom adds
        else if findPathDiagonalOK g current (n.col - current.col)
            (n.row - current.row) = false then
          visitNeighbors g endPos allowOcc current rest visited cameFrom adds
        else
          let visited2 := insert n visited
          let cameFrom2 := cameFrom ++ [(n, current)]
          if n = endPos then (visited2, cameFrom2, adds, true)
          else visitNeighbors g endPos allowOcc current rest visited2 cameFrom2
            (adds ++ [n])

/-- Search loop of `_findPathBFS`, fuel-bounded like `bfsAux`; returns the
parent map when the destination is found. -/
def findPathSearch (g : Grid) (endPos : Pos) (allowOcc : Bool) :
    ℕ → List Pos → Finset Pos → List (Pos × Pos) → Option (List (Pos × Pos))
  | 0, _, _, _ => none
  | _ + 1, [], _, _ => none
  | fuel + 1, current :: rest, visited, cameFrom =>
      if current = endPos then some cameFrom
      else
        match visitNeighbors g endPos allowOcc current
          (getNeighbors current.col current.row g.gridWidth g.gridHeight)
          visited cameFrom [] with
        | (visited2, cameFrom2, adds, found) =>
            if found then some cameFrom2
            else findPathSearch g endPos allowOcc fuel (rest ++ adds) visited2
              cameFrom2

/-- Lookup in the `cameFrom` parent map. -/
def lookupCameFrom (cameFrom : List (Pos × Pos)) (k : Pos) : Option Pos :=
  (cameFrom.find? fun pr => pr.1 == k).map fun pr => pr.2

/-- Back-walk of `_findPathBFS` from the destination to the start along the
parent map, accumulating the path; a missing parent yields `none`. -/
def reconstructPath (cameFrom : List (Pos × Pos)) (startPos : Pos) :
    ℕ → Pos → List Pos → Option (List Pos)
  | fuel, currentKey, path =>
      if currentKey = startPos then some path
      else
        match fuel with
        | 0 => none
        | fuel + 1 =>
            match lookupCameFrom cameFrom currentKey with
            | none => none
            | some prev =>
                reconstructPath cameFrom startPos fuel prev (currentKey :: path)

/-- `GridManager._findPathBFS`: empty path when start equals end, `none` when
the destination fails its (flag-dependent) walkability test, otherwise the
BFS path.  The coordinates are integers, so the source's `Number.isFinite`
guard is always satisfied and is omitted. -/
def findPathBFS (g : Grid) (start endPos : Pos)
    (allowDestinationOccupied : Bool) : Option (List Pos) :=
  if start = endPos then some []
  else
    let destinationWalkable := if allowDestinationOccupied = true then
        isWalkableIgnoreOccupant g endPos.col endPos.row
      else isWalkable g endPos.col endPos.row
    if destinationWalkable = false then none
    else
      match findPathSearch g endPos allowDestinationOccupied
        ((boundsFinset g).card + 2) [start] {start} [] with
      | none => none
      | some cameFrom =>
          reconstructPath cameFrom start (cameFrom.length + 1) endPos []

/-- `GridManager.findPath`. -/
def findPath (g : Grid) (start endPos : Pos) : Option (List Pos) :=
  findPathBFS g start endPos false

/-- `GridManager.findPathAllowDestination`. -/
def findPathAllowDestination (g : Grid) (start endPos : Pos) :
    Option (List Pos) :=
  findPathBFS g start endPos true

/-! Activation queue (`TurnManager.buildActivationQueue`). -/

/-- Core loop of `TurnManager.buildActivationQueue`: for each index up to the
longer list, append the player unit then the AI unit at that index when
present. -/
def buildActivationQueueFrom (playerUnits aiUnits : List Unit) : List Unit :=
  let maxLen := max playerUnits.length aiUnits.length
  (List.range maxLen).foldl
    (fun acc i =>
      let acc1 := match playerUnits[i]? with
        | some u => acc ++ [u]
        | none => acc
      match aiUnits[i]? with
      | some u => acc1 ++ [u]
      | none => acc1)
    []

/-- `TurnManager.buildActivationQueue` on the session state: interleave the
living, unactivated units of the two factions. -/
def buildActivationQueue (st : GameState) : List Unit :=
  buildActivationQueueFrom (getUnactivatedUnits st.units st.playerFaction)
    (getUnactivatedUnits st.units st.aiFaction)

/-! Specification-side definitions used to state the claims. -/

/-- One permitted BFS step of the movement rules: an in-bounds 8-direction
neighbour that is walkable and passes the diagonal corner-cut guard. -/
def stepOK (g : Grid) (a b : Pos) : Prop :=
  b ∈ getNeighbors a.col a.row g.gridWidth g.gridHeight ∧
  isWalkable g b.col b.row = true ∧
  moveRangeDiagonalOK g a (b.col - a.col) (b.row - a.row) = true

instance (g : Grid) (a b : Pos) : Decidable (stepOK g a b) := by
  unfold stepOK; infer_instance

/-- Existence of a path of `n` steps from the origin to a tile under the
movement rules; the least such `n` is the true shortest path cost. -/
inductive ReachesIn (g : Grid) (o : Pos) : Pos → ℕ → Prop
  | refl : ReachesIn g o o 0
  | step {a b : Pos} {n : ℕ} :
      ReachesIn g o a n → stepOK g a b → ReachesIn g o b (n + 1)

/-- Modelled from the spec: the diagonal corner-cut rule in the spec's words,
"both orthogonal tiles adjacent to A in B's direction are walkable ignoring
occupants". -/
def cornerRuleSpec (g : Grid) (A B : Pos) : Prop :=
  isWalkableIgnoreOccupant g B.col A.row = true ∧
  isWalkableIgnoreOccupant g A.col B.row = true

/-- Modelled from the spec: the round-robin zip of the two faction lists,
"faction A's i-th, faction B's i-th, skipping a side once exhausted". -/
def roundRobinZip {α : Type} : List α → List α → List α
  | [], [] => []
  | [], b :: bs => b :: roundRobinZip [] bs
  | a :: as, [] => a :: roundRobinZip as []
  | a :: as, b :: bs => a :: b :: roundRobinZip as bs

/-- The data-model invariant tying `overwatchCone` to the Overwatch status. -/
def InvCone (u : Unit) : Prop :=
  u.overwatchCone.isSome = true ↔ u.status = UnitStatus.overwatch

instance (u : Unit) : Decidable (InvCone u) := by
  unfold InvCone; infer_instance

/-! Concrete fixtures used to instantiate the theorems. -/

/-- A plain walkable tile with no cover, object or occupant. -/
def baseTile : TileData :=
  { walkable := true, coverType := CoverType.cnone,
    objectType := none, occupant := none }

/-- A full-cover tile with a placed object (non-walkable, as
`GridManager.setObject` marks cover tiles). -/
def fullCoverTile : TileData :=
  { walkable := false, coverType := CoverType.full,
    objectType := some ("column"), occupant := none }

/-- An open grid of the given dimensions. -/
def emptyGrid (w h : Int) : Grid :=
  { gridWidth := w, gridHeight := h, tiles := fun _ _ => baseTile }

/-- A 5 by 1 corridor with a full-cover column on tile (2,0). -/
def losGrid : Grid :=
  { gridWidth := 5, gridHeight := 1,
    tiles := fun c r => if c = 2 ∧ r = 0 then fullCoverTile else baseTile }

/-- A sample unit at column `c` of row 0. -/
def sampleUnit (idv factionv : String) (c : Int) : Unit :=
  { id := idv, faction := factionv, tile := ⟨c, 0⟩,
    hp := 10, maxHp := 10, ap := 2, maxAp := 2,
    activated := false, alive := true, status := UnitStatus.ready,
    facing := ⟨1, 0⟩, overwatchCone := none }

/-- A watcher on overwatch at (0,0) with cone (1,0). -/
def owWatcher : Unit :=
  { sampleUnit "watcher" "germani" 0 with
      status := UnitStatus.overwatch, overwatchCone := some ⟨1, 0⟩ }

/-- A player-faction mover. -/
def owMover : Unit := sampleUnit "mover" "orderOfTheAbyss" 5

/-- A session state with just the watcher and the mover on an open grid. -/
def owState : GameState :=
  { playerFaction := "orderOfTheAbyss", aiFaction := "germani",
    units := [owWatcher, owMover], grid := emptyGrid 10 3 }

/-- Sample player squad of five units. -/
def squadA : List Unit :=
  [sampleUnit "a0" "orderOfTheAbyss" 0, sampleUnit "a1" "orderOfTheAbyss" 1,
   sampleUnit "a2" "orderOfTheAbyss" 2, sampleUnit "a3" "orderOfTheAbyss" 3,
   sampleUnit "a4" "orderOfTheAbyss" 4]

/-- Sample AI squad of five units. -/
def squadB : List Unit :=
  [sampleUnit "b0" "germani" 10, sampleUnit "b1" "germani" 11,
   sampleUnit "b2" "germani" 12, sampleUnit "b3" "germani" 13,
   sampleUnit "b4" "germani" 14]

/-- Invariant of the movement-range BFS loop: the queue splits into a
cost-`d` prefix and a cost-`d+1` suffix; each queue entry is visited, within
the allowance, and carries its true shortest-path cost; every tile reachable
within `d` steps is visited; every visited tile that is no longer queued and
lies strictly below the movement limit has all its step-successors visited;
the origin is visited; and every visited tile is the origin or in bounds. -/
def BfsInv (g : Grid) (o : Pos) (M : ℕ) (Q : List QEntry) (V : Finset Pos)
    (d : ℕ) : Prop :=
  (∃ Q1 Q2, Q = Q1 ++ Q2 ∧ (∀ e ∈ Q1, e.cost = d) ∧
    (∀ e ∈ Q2, e.cost = d + 1)) ∧
  (∀ e ∈ Q, e.cost ≤ M ∧ e.pos ∈ V ∧ ReachesIn g o e.pos e.cost ∧
    (∀ m, ReachesIn g o e.pos m → e.cost ≤ m)) ∧
  (∀ t n, ReachesIn g o t n → n ≤ d → t ∈ V) ∧
  (∀ v ∈ V, (∀ e ∈ Q, e.pos ≠ v) →
    ∀ u, stepOK g v u → (∃ m, m < M ∧ ReachesIn g o v m) → u ∈ V) ∧
  o ∈ V ∧
  (∀ v ∈ V, v = o ∨ v ∈ boundsFinset g)

end WWA

namespace WWA

/-- C10: every AP-spending operation clamps the deduction at zero:
`executeAttack`, `setOverwatch`, `setHunker` and the move command each set
`ap` to `max 0 (ap - 1)`, so a unit's AP never becomes negative, even when
the operation runs with AP already 0. -/
theorem ap_deduction_clamped (g : Grid) (attacker target u : Unit)
    (t : AttackType) (roll : ℚ) :
    ((executeAttack g attacker target t roll).attacker.ap
        = max 0 (attacker.ap - 1) ∧
      0 ≤ (executeAttack g attacker target t roll).attacker.ap) ∧
    ((setOverwatch u).ap = max 0 (u.ap - 1) ∧ 0 ≤ (setOverwatch u).ap) ∧
    ((setHunker u).ap = max 0 (u.ap - 1) ∧ 0 ≤ (setHunker u).ap) ∧
    ((onPlayerMoveDeductAp u).ap = max 0 (u.ap - 1) ∧
      0 ≤ (onPlayerMoveDeductAp u).ap) := by
  have hatt : (executeAttack g attacker target t roll).attacker.ap
      = max 0 (attacker.ap - 1) := by
    unfold executeAttack
    dsimp only
    split <;> rfl
  refine ⟨⟨hatt, by rw [hatt]; exact le_max_left _ _⟩,
    ⟨rfl, le_max_left _ _⟩, ⟨rfl, le_max_left _ _⟩, ⟨rfl, le_max_left _ _⟩⟩

/-- C8: `_findPathBFS` returns the empty path (not `none`) when start equals
end, and returns `none` when the destination tile fails its walkability
test, occupancy-aware according to the allow-occupied-destination flag. -/
theorem findPath_degenerate_cases (g : Grid) (s e : Pos) (allowOcc : Bool) :
    (s = e → findPathBFS g s e allowOcc = some []) ∧
    (s ≠ e →
      (if allowOcc = true then isWalkableIgnoreOccupant g e.col e.row
        else isWalkable g e.col e.row) = false →
      findPathBFS g s e allowOcc = none) := by
  constructor
  · intro h
    unfold findPathBFS
    rw [if_pos h]
  · intro hne hw
    unfold findPathBFS
    rw [if_neg hne]
    dsimp only
    rw [if_pos hw]

/-- C8 witness: on the corridor grid, pathing from (0,0) to itself yields the
empty path, and pathing to the non-walkable column tile (2,0) yields
`none`. -/
theorem findPath_degenerate_cases_witness :
    findPathBFS losGrid ⟨0, 0⟩ ⟨0, 0⟩ false = some [] ∧
    findPathBFS losGrid ⟨0, 0⟩ ⟨2, 0⟩ false = none :=
  ⟨(findPath_degenerate_cases losGrid ⟨0, 0⟩ ⟨0, 0⟩ false).1 rfl,
   (findPath_degenerate_cases losGrid ⟨0, 0⟩ ⟨2, 0⟩ false).2 (by decide)
     (by decide)⟩

/-- C4 counterexample: a unit on Overwatch satisfies the cone/status
equivalence, but killing it (`setUnitDead`) leaves the cone set with status
Dead, and hunkering it leaves the cone set with status Hunkered, so neither
operation preserves the equivalence. -/
theorem overwatchCone_not_preserved_counterexample :
    InvCone owWatcher ∧
    ¬ InvCone (setUnitDead (emptyGrid 10 3) owWatcher).2 ∧
    ¬ InvCone (setHunker owWatcher) :=
  ⟨by decide, by decide, by decide⟩

/-- C4 (amended): the cone/status equivalence is preserved by
`setOverwatch`, by the overwatch shot, and by the start-of-turn reset, and by
`setHunker` whenever the unit is not already on Overwatch; unit death does
not clear the cone, so a killed Overwatch unit retains a non-null cone with
status Dead. -/
theorem overwatchCone_status_preservation (g : Grid) (u mover : Unit)
    (roll : ℚ) (h : InvCone u) :
    InvCone (setOverwatch u) ∧
    InvCone (executeOverwatchShotWatcher g u mover roll) ∧
    InvCone (resetActivationsUnit u) ∧
    (u.status ≠ UnitStatus.overwatch → InvCone (setHunker u)) := by
  refine ⟨?_, ?_, ?_, ?_⟩
  · unfold InvCone setOverwatch
    simp
  · unfold InvCone executeOverwatchShotWatcher
    simp
  · unfold InvCone resetActivationsUnit
    unfold InvCone at h
    by_cases ha : u.alive
    · simp only [ha, Bool.not_true, Bool.false_eq_true, if_false]
      by_cases hs : u.status = UnitStatus.overwatch ∨
          u.status = UnitStatus.hunkered
      · rw [if_pos hs]
        simp
      · rw [if_neg hs]
        simpa using h
    · simp only [Bool.not_eq_true] at ha
      simp only [ha, Bool.not_false, if_true]
      exact h
  · intro hs
    unfold InvCone setHunker
    unfold InvCone at h
    simp only
    constructor
    · intro hc
      exact absurd (h.mp hc) hs
    · intro hc
      cases hc

/-- C4 witness: the preservation theorem applied to a concrete Ready unit. -/
theorem overwatchCone_status_preservation_witness :
    InvCone (setOverwatch (sampleUnit "w" "germani" 0)) ∧
    InvCone (executeOverwatchShotWatcher (emptyGrid 4 4)
      (sampleUnit "w" "germani" 0) (sampleUnit "m" "orderOfTheAbyss" 1) 0) ∧
    InvCone (resetActivationsUnit (sampleUnit "w" "germani" 0)) ∧
    InvCone (setHunker (sampleUnit "w" "germani" 0)) := by
  have h := overwatchCone_status_preservation (emptyGrid 4 4)
    (sampleUnit "w" "germani" 0) (sampleUnit "m" "orderOfTheAbyss" 1) 0
    (by decide)
  exact ⟨h.1, h.2.1, h.2.2.1, h.2.2.2 (by decide)⟩

/-- C5: `getMovementRange` and `_findPathBFS` share the identical diagonal
corner-cut rule: for diagonally adjacent walkable tiles `A` and `B`, both
guards agree, and they permit the step exactly when both orthogonal tiles
adjacent to `A` in `B`'s direction are walkable ignoring occupants. -/
theorem diagonal_corner_rule_shared (g : Grid) (A B : Pos)
    (hdc : B.col - A.col = 1 ∨ B.col - A.col = -1)
    (hdr : B.row - A.row = 1 ∨ B.row - A.row = -1)
    (hA : isWalkableIgnoreOccupant g A.col A.row = true)
    (hB : isWalkableIgnoreOccupant g B.col B.row = true) :
    moveRangeDiagonalOK g A (B.col - A.col) (B.row - A.row)
      = findPathDiagonalOK g A (B.col - A.col) (B.row - A.row) ∧
    (moveRangeDiagonalOK g A (B.col - A.col) (B.row - A.row) = true ↔
      cornerRuleSpec g A B) := by
  constructor
  · rfl
  · have hc : B.col - A.col ≠ 0 := by rcases hdc with h | h <;> omega
    have hr : B.row - A.row ≠ 0 := by rcases hdr with h | h <;> omega
    unfold moveRangeDiagonalOK cornerRuleSpec
    rw [if_pos ⟨hc, hr⟩]
    have e1 : A.col + (B.col - A.col) = B.col := by ring
    have e2 : A.row + (B.row - A.row) = B.row := by ring
    rw [e1, e2, Bool.and_eq_true]

/-- C5 witness: the shared corner rule evaluated on the open grid for the
diagonal step from (0,0) to (1,1). -/
theorem diagonal_corner_rule_shared_witness :
    moveRangeDiagonalOK (emptyGrid 3 3) ⟨0, 0⟩ 1 1
      = findPathDiagonalOK (emptyGrid 3 3) ⟨0, 0⟩ 1 1 ∧
    (moveRangeDiagonalOK (emptyGrid 3 3) ⟨0, 0⟩ 1 1 = true ↔
      cornerRuleSpec (emptyGrid 3 3) ⟨0, 0⟩ ⟨1, 1⟩) :=
  diagonal_corner_rule_shared (emptyGrid 3 3) ⟨0, 0⟩ ⟨1, 1⟩ (Or.inl (by decide))
    (Or.inl (by decide)) (by decide) (by decide)

/-- Folding an append-only step over a list appends the concatenation of the
per-element chunks. -/
theorem foldl_append_eq_flatMap {β : Type} (f : ℕ → List β) :
    ∀ (l : List ℕ) (acc : List β),
      l.foldl (fun a i => a ++ f i) acc = acc ++ l.flatMap f := by
  intro l
  induction l with
  | nil => intro acc; simp
  | cons hd tl ih =>
      intro acc
      rw [List.foldl_cons, ih, List.flatMap_cons, List.append_assoc]

/-- The activation-queue loop equals a per-index concatenation of the
optional units at each index. -/
theorem buildActivationQueueFrom_eq_flatMap (A B : List Unit) :
    buildActivationQueueFrom A B
      = (List.range (max A.length B.length)).flatMap
          (fun i => (A[i]?).toList ++ (B[i]?).toList) := by
  unfold buildActivationQueueFrom
  have hstep : (fun (acc : List Unit) (i : ℕ) =>
      let acc1 := match A[i]? with
        | some u => acc ++ [u]
        | none => acc
      match B[i]? with
      | some u => acc1 ++ [u]
      | none => acc1)
      = fun acc i => acc ++ ((A[i]?).toList ++ (B[i]?).toList) := by
    funext acc i
    cases A[i]? <;> cases B[i]? <;> simp
  rw [hstep, foldl_append_eq_flatMap]
  simp

/-- The per-index concatenation of two lists is their round-robin zip. -/
theorem range_flatMap_eq_roundRobinZip {α : Type} :
    ∀ (A B : List α),
      (List.range (max A.length B.length)).flatMap
        (fun i => (A[i]?).toList ++ (B[i]?).toList) = roundRobinZip A B := by
  intro A
  induction A with
  | nil =>
      intro B
      induction B with
      | nil => simp [roundRobinZip]
      | cons b bs ihb =>
          rw [roundRobinZip]
          simp only [List.length_nil, List.length_cons, Nat.zero_max]
          rw [List.range_succ_eq_map, List.flatMap_cons, List.flatMap_map]
          simp only [List.getElem?_nil, List.getElem?_cons_zero,
            Option.toList_none, Option.toList_some, List.nil_append,
            List.getElem?_cons_succ]
          simp only [List.length_nil, Nat.zero_max, List.getElem?_nil,
            Option.toList_none, List.nil_append] at ihb
          rw [ihb]
          rfl
  | cons a as ih =>
      intro B
      cases B with
      | nil =>
          rw [roundRobinZip]
          simp only [List.length_cons, List.length_nil, Nat.max_zero]
          rw [List.range_succ_eq_map, List.flatMap_cons, List.flatMap_map]
          simp only [List.getElem?_nil, List.getElem?_cons_zero,
            Option.toList_none, Option.toList_some, List.append_nil,
            List.getElem?_cons_succ]
          have h0 := ih []
          simp only [List.length_nil, Nat.max_zero, List.getElem?_nil,
            Option.toList_none, List.append_nil] at h0
          rw [h0]
          rfl
      | cons b bs =>
          rw [roundRobinZip]
          simp only [List.length_cons, Nat.succ_max_succ]
          rw [List.range_succ_eq_map, List.flatMap_cons, List.flatMap_map]
          simp only [List.getElem?_cons_zero, Option.toList_some,
            List.getElem?_cons_succ]
          rw [ih bs]
          rfl

/-- Length of the round-robin zip. -/
theorem roundRobinZip_length {α : Type} :
    ∀ (A B : List α), (roundRobinZip A B).length = A.length + B.length := by
  intro A
  induction A with
  | nil =>
      intro B
      induction B with
      | nil => simp [roundRobinZip]
      | cons b bs ihb => rw [roundRobinZip]; simp [ihb]
  | cons a as ih =>
      intro B
      cases B with
      | nil => rw [roundRobinZip]; simp [ih []]
      | cons b bs => rw [roundRobinZip]; simp [ih bs]; omega

/-- For equal-length lists the round-robin zip strictly alternates. -/
theorem roundRobinZip_eq_zip {α : Type} :
    ∀ (A B : List α), A.length = B.length →
      roundRobinZip A B = (A.zip B).flatMap fun p => [p.1, p.2] := by
  intro A
  induction A with
  | nil =>
      intro B h
      have hB : B = [] := List.eq_nil_of_length_eq_zero h.symm
      subst hB
      simp [roundRobinZip]
  | cons a as ih =>
      intro B h
      cases B with
      | nil => simp at h
      | cons b bs =>
          rw [roundRobinZip]
          rw [List.zip_cons_cons, List.flatMap_cons]
          rw [ih bs (by simpa using h)]
          rfl

/-- C9: `buildActivationQueue` produces the round-robin zip of the two
faction unit lists (player's i-th then AI's i-th, skipping a side once
exhausted); the queue holds every unit of both lists, and two equal-length
squads interleave in strictly alternating faction order. -/
theorem buildActivationQueue_roundRobin (A B : List Unit) :
    buildActivationQueueFrom A B = roundRobinZip A B ∧
    (buildActivationQueueFrom A B).length = A.length + B.length ∧
    (A.length = B.length →
      buildActivationQueueFrom A B
        = (A.zip B).flatMap fun p => [p.1, p.2]) := by
  have h := buildActivationQueueFrom_eq_flatMap A B
  rw [range_flatMap_eq_roundRobinZip] at h
  exact ⟨h, by rw [h, roundRobinZip_length],
    fun hlen => by rw [h, roundRobinZip_eq_zip A B hlen]⟩

/-- C9 witness: two five-unit squads build a queue of length ten in strictly
alternating order. -/
theorem buildActivationQueue_roundRobin_witness :
    (buildActivationQueueFrom squadA squadB).length = 10 ∧
    buildActivationQueueFrom squadA squadB
      = (squadA.zip squadB).flatMap fun p => [p.1, p.2] :=
  ⟨((buildActivationQueue_roundRobin squadA squadB).2.1).trans (by decide),
   (buildActivationQueue_roundRobin squadA squadB).2.2 (by decide)⟩

/-- A line tile blocks LOS exactly when it is distinct from the target tile
and carries full cover with a placed object. -/
theorem losBlockedAt_eq_true_iff (g : Grid) (tc tr : Int) (p : Pos) :
    losBlockedAt g tc tr p = true ↔
      (¬(p.col = tc ∧ p.row = tr) ∧
        ∃ td, getTile g p.col p.row = some td ∧
          td.coverType = CoverType.full ∧ objTruthy td.objectType = true) := by
  unfold losBlockedAt
  cases h : getTile g p.col p.row with
  | none => simp
  | some t =>
      simp only [Bool.and_eq_true, Bool.not_eq_true', beq_iff_eq,
        Bool.and_eq_false_iff]
      constructor
      · rintro ⟨h1, h2, h3⟩
        refine ⟨?_, t, rfl, h2, h3⟩
        intro ⟨hc, hr⟩
        simp [hc, hr] at h1
      · rintro ⟨h1, td, htd, h2, h3⟩
        cases htd
        refine ⟨?_, h2, h3⟩
        by_cases hc : p.col = tc
        · by_cases hr : p.row = tr
          · exact absurd ⟨hc, hr⟩ h1
          · simp [hr]
        · simp [hc]

/-- C6: for in-bounds endpoints, `checkLOS` reports `clear = false` with the
distinct blocked marker and a zero penalty exactly when some tile strictly
between attacker and target on the traced line carries full cover and a
placed object; otherwise it reports `clear = true` with the cover evaluated
at the target's position. -/
theorem checkLOS_blocking_spec (g : Grid) (fc fr tc tr : Int)
    (hf : (getTile g fc fr).isSome = true)
    (ht : (getTile g tc tr).isSome = true) :
    ((∃ p ∈ bresenhamLine ⟨fc, fr⟩ ⟨tc, tr⟩, ¬(p.col = tc ∧ p.row = tr) ∧
        ∃ td, getTile g p.col p.row = some td ∧
          td.coverType = CoverType.full ∧ objTruthy td.objectType = true) →
      checkLOS g fc fr tc tr
        = { clear := false, coverPenalty := 0,
            coverType := CoverType.blocked }) ∧
    ((¬ ∃ p ∈ bresenhamLine ⟨fc, fr⟩ ⟨tc, tr⟩, ¬(p.col = tc ∧ p.row = tr) ∧
        ∃ td, getTile g p.col p.row = some td ∧
          td.coverType = CoverType.full ∧ objTruthy td.objectType = true) →
      checkLOS g fc fr tc tr
        = { clear := true,
            coverPenalty := (getCoverBetween g ⟨fc, fr⟩ ⟨tc, tr⟩).penalty,
            coverType := (getCoverBetween g ⟨fc, fr⟩ ⟨tc, tr⟩).coverType }) := by
  have key : (bresenhamLine ⟨fc, fr⟩ ⟨tc, tr⟩).any (losBlockedAt g tc tr)
        = true ↔
      (∃ p ∈ bresenhamLine ⟨fc, fr⟩ ⟨tc, tr⟩, ¬(p.col = tc ∧ p.row = tr) ∧
        ∃ td, getTile g p.col p.row = some td ∧
          td.coverType = CoverType.full ∧ objTruthy td.objectType = true) := by
    rw [List.any_eq_true]
    constructor
    · rintro ⟨p, hp, hb⟩
      exact ⟨p, hp, (losBlockedAt_eq_true_iff g tc tr p).mp hb⟩
    · rintro ⟨p, hp, hb⟩
      exact ⟨p, hp, (losBlockedAt_eq_true_iff g tc tr p).mpr hb⟩
  constructor
  · intro hex
    unfold checkLOS
    rw [if_pos (key.mpr hex)]
  · intro hno
    unfold checkLOS
    rw [if_neg (fun hc => hno (key.mp hc))]

/-- C6 witness: on the corridor grid the column at (2,0) blocks LOS from
(0,0) to (4,0), while LOS from (0,0) to the adjacent tile (1,0) is clear and
reports the target's cover. -/
theorem checkLOS_blocking_spec_witness :
    checkLOS losGrid 0 0 4 0
      = { clear := false, coverPenalty := 0, coverType := CoverType.blocked } ∧
    checkLOS losGrid 0 0 1 0
      = { clear := true,
          coverPenalty := (getCoverBetween losGrid ⟨0, 0⟩ ⟨1, 0⟩).penalty,
          coverType := (getCoverBetween losGrid ⟨0, 0⟩ ⟨1, 0⟩).coverType } :=
  ⟨(checkLOS_blocking_spec losGrid 0 0 4 0 (by decide) (by decide)).1
     (by decide),
   (checkLOS_blocking_spec losGrid 0 0 1 0 (by decide) (by decide)).2
     (by decide)⟩

/-- When `checkLOS` reports clear LOS, its result is exactly the clear record
built from the target's directional cover. -/
theorem checkLOS_clear_eq (g : Grid) (a b c d : Int)
    (h : (checkLOS g a b c d).clear = true) :
    checkLOS g a b c d
      = { clear := true,
          coverPenalty := (getCoverBetween g ⟨a, b⟩ ⟨c, d⟩).penalty,
          coverType := (getCoverBetween g ⟨a, b⟩ ⟨c, d⟩).coverType } := by
  unfold checkLOS at h ⊢
  by_cases hany : (bresenhamLine ⟨a, b⟩ ⟨c, d⟩).any (losBlockedAt g c d) = true
  · rw [if_pos hany] at h
    exact absurd h (by simp)
  · rw [if_neg hany]

/-- The cover scan only ever lowers the accumulated penalty below zero. -/
theorem coverScan_penalty_nonpos (g : Grid) :
    ∀ (l : List Pos) (acc : CoverType × ℚ), acc.2 ≤ 0 →
      (l.foldl (coverScanStep g) acc).2 ≤ 0 := by
  intro l
  induction l with
  | nil => intro acc h; exact h
  | cons p rest ih =>
      intro acc h
      rw [List.foldl_cons]
      apply ih
      unfold coverScanStep
      cases getTile g p.col p.row with
      | none => exact h
      | some t =>
          dsimp only
          split
          · split
            · norm_num [COVER_BONUS_full]
            · exact h
          · split
            · split
              · norm_num [COVER_BONUS_half]
              · exact h
            · exact h

/-- The directional cover penalty is never positive. -/
theorem getCoverBetween_penalty_nonpos (g : Grid) (a b : Pos) :
    (getCoverBetween g a b).penalty ≤ 0 := by
  unfold getCoverBetween
  exact coverScan_penalty_nonpos g _ (CoverType.cnone, 0) le_rfl

/-- The sequential chance updates of the ranged branch equal the claim's
single sum of conditional modifiers. -/
theorem ranged_chance_chain_eq (pen : ℚ) (hS : Prop) [Decidable hS]
    (flank : Bool) (near : Prop) [Decidable near] :
    (if near then
        (if flank = true then
            (if hS then (if pen ≠ 0 then STATS_rangedAccuracy + pen
                else STATS_rangedAccuracy) + pen
              else (if pen ≠ 0 then STATS_rangedAccuracy + pen
                else STATS_rangedAccuracy)) + FLANKING_BONUS
          else (if hS then (if pen ≠ 0 then STATS_rangedAccuracy + pen
                else STATS_rangedAccuracy) + pen
            else (if pen ≠ 0 then STATS_rangedAccuracy + pen
              else STATS_rangedAccuracy))) + (-5 / 100)
      else
        (if flank = true then
            (if hS then (if pen ≠ 0 then STATS_rangedAccuracy + pen
                else STATS_rangedAccuracy) + pen
              else (if pen ≠ 0 then STATS_rangedAccuracy + pen
                else STATS_rangedAccuracy)) + FLANKING_BONUS
          else (if hS then (if pen ≠ 0 then STATS_rangedAccuracy + pen
                else STATS_rangedAccuracy) + pen
            else (if pen ≠ 0 then STATS_rangedAccuracy + pen
              else STATS_rangedAccuracy))))
      = STATS_rangedAccuracy + pen + (if hS then pen else 0)
        + (if flank = true then FLANKING_BONUS else 0)
        + (if near then -5 / 100 else 0) := by
  by_cases h1 : pen = 0 <;> by_cases h2 : hS <;>
    by_cases h3 : flank = true <;> by_cases h4 : near <;>
      simp [h1, h2, h3, h4] <;> ring

/-- C1: for a ranged attack on a living target (with the pre-validated clear
line of sight), the chance is the base ranged accuracy plus the non-positive
cover penalty of the target's cover from the attacker's direction, plus that
penalty again when the target is Hunkered behind nonzero cover, plus the
flanking bonus when flanked, plus the near-max-range penalty at Chebyshev
distance at least `rangedRange - 1`, clamped to the hit-chance bounds; the
breakdown reports the base, each applied modifier, the damage value and the
final chance. -/
theorem calculateHitChance_ranged_spec (g : Grid) (attacker target : Unit)
    (halive : target.alive = true)
    (hclear : (checkLOS g attacker.tile.col attacker.tile.row target.tile.col
        target.tile.row).clear = true) :
    (getCoverBetween g attacker.tile target.tile).penalty ≤ 0 ∧
    (calculateHitChance g attacker target AttackType.ranged).1
      = clamp (STATS_rangedAccuracy
          + (getCoverBetween g attacker.tile target.tile).penalty
          + (if target.status = UnitStatus.hunkered ∧
                (getCoverBetween g attacker.tile target.tile).penalty ≠ 0
              then (getCoverBetween g attacker.tile target.tile).penalty
              else 0)
          + (if checkFlanking attacker.tile target.tile (some target.facing)
                = true then FLANKING_BONUS else 0)
          + (if STATS_rangedRange - 1 ≤ tileDistance attacker.tile target.tile
              then -5 / 100 else 0))
          MIN_HIT_CHANCE MAX_HIT_CHANCE ∧
    (calculateHitChance g attacker target AttackType.ranged).2.base
      = some STATS_rangedAccuracy ∧
    (calculateHitChance g attacker target AttackType.ranged).2.damage
      = some STATS_rangedDamage ∧
    ((getCoverBetween g attacker.tile target.tile).penalty ≠ 0 →
      (calculateHitChance g attacker target AttackType.ranged).2.coverPenalty
        = some (getCoverBetween g attacker.tile target.tile).penalty) ∧
    (target.status = UnitStatus.hunkered ∧
        (getCoverBetween g attacker.tile target.tile).penalty ≠ 0 →
      (calculateHitChance g attacker target
          AttackType.ranged).2.hunkeredPenalty
        = some (getCoverBetween g attacker.tile target.tile).penalty) ∧
    (checkFlanking attacker.tile target.tile (some target.facing) = true →
      (calculateHitChance g attacker target AttackType.ranged).2.flankingBonus
        = some FLANKING_BONUS) ∧
    (STATS_rangedRange - 1 ≤ tileDistance attacker.tile target.tile →
      (calculateHitChance g attacker target AttackType.ranged).2.rangePenalty
        = some (-5 / 100)) ∧
    (calculateHitChance g attacker target AttackType.ranged).2.final
      = some (calculateHitChance g attacker target AttackType.ranged).1 := by
  have hlos := checkLOS_clear_eq g attacker.tile.col attacker.tile.row
    target.tile.col target.tile.row hclear
  have heta : (⟨attacker.tile.col, attacker.tile.row⟩ : Pos) = attacker.tile :=
    rfl
  have heta2 : (⟨target.tile.col, target.tile.row⟩ : Pos) = target.tile := rfl
  rw [heta, heta2] at hlos
  refine ⟨getCoverBetween_penalty_nonpos g attacker.tile target.tile,
    ?_, ?_, ?_, ?_, ?_, ?_, ?_, ?_⟩
  · simp only [calculateHitChance, hlos]
    rw [ranged_chance_chain_eq]
  · simp only [calculateHitChance, hlos]
  · simp only [calculateHitChance, hlos]
  · intro h
    simp only [calculateHitChance, hlos]
    rw [if_pos h]
  · intro h
    simp only [calculateHitChance, hlos]
    rw [if_pos h]
  · intro h
    simp only [calculateHitChance, hlos]
    rw [if_pos h]
  · intro h
    simp only [calculateHitChance, hlos]
    rw [if_pos h]
  · simp only [calculateHitChance, hlos]

/-- C1 witness: an unflanked, uncovered, living target three tiles away on an
open grid yields exactly the base ranged accuracy of 70%. -/
theorem calculateHitChance_ranged_spec_witness :
    (calculateHitChance (emptyGrid 8 3)
        (sampleUnit "atk" "orderOfTheAbyss" 0)
        { sampleUnit "tgt" "germani" 3 with facing := ⟨-1, 0⟩ }
        AttackType.ranged).1 = 70 / 100 := by
  have h := calculateHitChance_ranged_spec (emptyGrid 8 3)
    (sampleUnit "atk" "orderOfTheAbyss" 0)
    { sampleUnit "tgt" "germani" 3 with facing := ⟨-1, 0⟩ }
    (by decide) (by decide)
  rw [h.2.1]
  have hcov : (getCoverBetween (emptyGrid 8 3)
      (sampleUnit "atk" "orderOfTheAbyss" 0).tile
      ({ sampleUnit "tgt" "germani" 3 with facing := ⟨-1, 0⟩ } : Unit).tile).penalty
      = 0 := rfl
  have hflank : checkFlanking (sampleUnit "atk" "orderOfTheAbyss" 0).tile
      ({ sampleUnit "tgt" "germani" 3 with facing := ⟨-1, 0⟩ } : Unit).tile
      (some ({ sampleUnit "tgt" "germani" 3 with
        facing := ⟨-1, 0⟩ } : Unit).facing) = false := by decide
  have hnear : ¬(STATS_rangedRange - 1 ≤
      tileDistance (sampleUnit "atk" "orderOfTheAbyss" 0).tile
        ({ sampleUnit "tgt" "germani" 3 with
          facing := ⟨-1, 0⟩ } : Unit).tile) := by decide
  rw [hcov, hflank, if_neg hnear]
  norm_num [clamp, STATS_rangedAccuracy, MIN_HIT_CHANCE, MAX_HIT_CHANCE]

/-- C2 counterexample: the watcher at (0,0) with cone (1,0) is in the trigger
list for a movement step from (5,0) to (4,0) — within range and with clear
LOS — even though the movement direction (toTile − fromTile, normalized) has
a negative dot product with the cone, so the claimed movement-direction test
does not describe `checkOverwatch`. -/
theorem checkOverwatch_movement_direction_counterexample :
    checkOverwatch owState owMover ⟨5, 0⟩ ⟨4, 0⟩ = [owWatcher] ∧
    owWatcher.overwatchCone = some ⟨1, 0⟩ ∧
    (getTileDirection ⟨5, 0⟩ ⟨4, 0⟩).col * 1
      + (getTileDirection ⟨5, 0⟩ ⟨4, 0⟩).row * 0 < 0 ∧
    tileDistance owWatcher.tile ⟨4, 0⟩ ≤ OVERWATCH_range ∧
    (checkLOS owState.grid 0 0 4 0).clear = true :=
  ⟨by decide, rfl, by decide, by decide, by decide⟩

/-- C2 (amended): for every living enemy with status Overwatch,
`checkOverwatch` includes it in the trigger list iff the Chebyshev distance
from the watcher to `toTile` is within the overwatch range, LOS from the
watcher to `toTile` is clear, and, when a cone is recorded, the dot product
of the watcher→`toTile` vector with the cone is nonnegative. -/
theorem checkOverwatch_trigger_iff (st : GameState) (mover : Unit)
    (fromTile toTile : Pos) (e : Unit)
    (hmem : e ∈ st.units)
    (hfac : e.faction = (if mover.faction == st.playerFaction
      then st.aiFaction else st.playerFaction))
    (halive : e.alive = true)
    (how : e.status = UnitStatus.overwatch) :
    e ∈ checkOverwatch st mover fromTile toTile ↔
      (tileDistance e.tile toTile ≤ OVERWATCH_range ∧
       (checkLOS st.grid e.tile.col e.tile.row toTile.col
         toTile.row).clear = true ∧
       (∀ cone, e.overwatchCone = some cone →
         0 ≤ (toTile.col - e.tile.col) * cone.col
           + (toTile.row - e.tile.row) * cone.row)) := by
  unfold checkOverwatch getAliveUnits
  rw [List.mem_filter, List.mem_filter]
  have hpre : (e ∈ st.units ∧
      (e.faction == (if mover.faction == st.playerFaction then st.aiFaction
        else st.playerFaction) && e.alive) = true) := by
    refine ⟨hmem, ?_⟩
    rw [Bool.and_eq_true, beq_iff_eq, ← hfac]
    exact ⟨rfl, halive⟩
  rw [and_iff_right hpre]
  unfold overwatchTriggerCheck
  simp only [Bool.and_eq_true, beq_iff_eq, decide_eq_true_eq, how, true_and]
  cases hc : e.overwatchCone with
  | none =>
      constructor
      · rintro ⟨⟨h1, h2⟩, -⟩
        exact ⟨h1, h2, fun cone hcone => Option.noConfusion hcone⟩
      · rintro ⟨h1, h2, -⟩
        exact ⟨⟨h1, h2⟩, rfl⟩
  | some cone =>
      simp only [Bool.not_eq_true', decide_eq_false_iff_not, not_lt]
      constructor
      · rintro ⟨⟨h1, h2⟩, h3⟩
        refine ⟨h1, h2, fun c hcc => ?_⟩
        injection hcc with hcc2
        subst hcc2
        exact h3
      · rintro ⟨h1, h2, h3⟩
        exact ⟨⟨h1, h2⟩, h3 cone rfl⟩

/-- C2 witness: the amended trigger condition applied to a step ending at
(4,0), in front of the watcher's cone. -/
theorem checkOverwatch_trigger_iff_witness :
    owWatcher ∈ checkOverwatch owState owMover ⟨3, 0⟩ ⟨4, 0⟩ :=
  (checkOverwatch_trigger_iff owState owMover ⟨3, 0⟩ ⟨4, 0⟩ owWatcher
      (by decide) (by decide) rfl rfl).mpr
    ⟨by decide, by decide, by
      intro cone hc
      have h2 : some (⟨1, 0⟩ : Pos) = some cone := hc
      injection h2 with h3
      subst h3
      decide⟩

/-- Clearing the occupant of an in-bounds tile updates exactly that tile's
occupant field. -/
theorem clearOccupant_getTile {g : Grid} {c r : Int} {td : TileData}
    (h : getTile g c r = some td) :
    getTile (clearOccupant g c r) c r = some { td with occupant := none } := by
  unfold clearOccupant
  rw [h]
  dsimp only
  unfold getTile at h ⊢
  by_cases hb : c < 0 ∨ g.gridWidth ≤ c ∨ r < 0 ∨ g.gridHeight ≤ r
  · rw [if_pos hb] at h
    cases h
  · rw [if_neg hb] at h
    rw [if_neg hb]
    injection h with h2
    dsimp only
    rw [if_pos ⟨rfl, rfl⟩, h2]

/-- C7: an `executeAttack` whose hit damage reduces the target's HP to zero
reports a kill, leaves the target with status Dead and not alive, clears the
occupant of the target's tile, and (its terrain flag being walkable) that
tile answers walkable on the next `isWalkable` query. -/
theorem executeAttack_killing_blow (g : Grid) (attacker target : Unit)
    (t : AttackType) (roll : ℚ) (td : TileData)
    (hhit : roll ≤ (calculateHitChance g attacker target t).1)
    (hkill : target.hp ≤ (if t = AttackType.ranged then STATS_rangedDamage
      else STATS_meleeDamage))
    (htile : getTile g target.tile.col target.tile.row = some td)
    (hwalk : td.walkable = true) :
    (executeAttack g attacker target t roll).killed = true ∧
    (executeAttack g attacker target t roll).target.status
      = UnitStatus.dead ∧
    (executeAttack g attacker target t roll).target.alive = false ∧
    getTile (executeAttack g attacker target t roll).grid target.tile.col
      target.tile.row = some { td with occupant := none } ∧
    isWalkable (executeAttack g attacker target t roll).grid target.tile.col
      target.tile.row = true := by
  have hdec : decide (roll ≤ (calculateHitChance g attacker target t).1)
      = true := decide_eq_true hhit
  have hkilled : (applyDamage target (if t = AttackType.ranged then
      STATS_rangedDamage else STATS_meleeDamage)).2 = true := by
    unfold applyDamage
    simp only [decide_eq_true_eq]
    omega
  have hget := clearOccupant_getTile (g := g) (c := target.tile.col)
    (r := target.tile.row) htile
  unfold executeAttack
  simp only [hdec, if_true, hkilled]
  unfold setUnitDead
  dsimp only
  simp only [show (applyDamage target (if t = AttackType.ranged then
    STATS_rangedDamage else STATS_meleeDamage)).1.tile = target.tile from rfl]
  refine ⟨?_, ?_, ?_, ?_, ?_⟩ <;>
    first
      | trivial
      | exact hget
      | (unfold isWalkable; rw [hget]; simp [hwalk])

/-- C7 witness: a melee killing blow against a 3-HP target on the open grid
leaves it Dead on a cleared, walkable tile. -/
theorem executeAttack_killing_blow_witness :
    (executeAttack (emptyGrid 3 3) (sampleUnit "atk" "orderOfTheAbyss" 0)
      { sampleUnit "tgt" "germani" 1 with hp := 3 } AttackType.melee
      0).killed = true ∧
    (executeAttack (emptyGrid 3 3) (sampleUnit "atk" "orderOfTheAbyss" 0)
      { sampleUnit "tgt" "germani" 1 with hp := 3 } AttackType.melee
      0).target.status = UnitStatus.dead ∧
    (executeAttack (emptyGrid 3 3) (sampleUnit "atk" "orderOfTheAbyss" 0)
      { sampleUnit "tgt" "germani" 1 with hp := 3 } AttackType.melee
      0).target.alive = false ∧
    getTile (executeAttack (emptyGrid 3 3)
        (sampleUnit "atk" "orderOfTheAbyss" 0)
        { sampleUnit "tgt" "germani" 1 with hp := 3 } AttackType.melee
        0).grid 1 0 = some { baseTile with occupant := none } ∧
    isWalkable (executeAttack (emptyGrid 3 3)
        (sampleUnit "atk" "orderOfTheAbyss" 0)
        { sampleUnit "tgt" "germani" 1 with hp := 3 } AttackType.melee
        0).grid 1 0 = true := by
  have hchance : (calculateHitChance (emptyGrid 3 3)
      (sampleUnit "atk" "orderOfTheAbyss" 0)
      ({ sampleUnit "tgt" "germani" 1 with hp := 3 } : Unit)
      AttackType.melee).1 = 95 / 100 := by
    unfold calculateHitChance
    have hflank : checkFlanking (sampleUnit "atk" "orderOfTheAbyss" 0).tile
        ({ sampleUnit "tgt" "germani" 1 with hp := 3 } : Unit).tile
        (some ({ sampleUnit "tgt" "germani" 1 with
          hp := 3 } : Unit).facing) = true := by decide
    simp only [hflank, if_true]
    norm_num [clamp, STATS_meleeAccuracy, FLANKING_BONUS, MIN_HIT_CHANCE,
      MAX_HIT_CHANCE]
  exact executeAttack_killing_blow (emptyGrid 3 3)
    (sampleUnit "atk" "orderOfTheAbyss" 0)
    { sampleUnit "tgt" "germani" 1 with hp := 3 } AttackType.melee 0 baseTile
    (by rw [hchance]; norm_num) (by decide) (by decide) rfl

/-- A zero-step reach ends at the origin. -/
theorem reachesIn_zero {g : Grid} {o t : Pos} (h : ReachesIn g o t 0) :
    t = o := by
  cases h
  rfl

/-- A positive-length reach decomposes into a shorter reach and one step. -/
theorem reachesIn_succ {g : Grid} {o t : Pos} {n : ℕ}
    (h : ReachesIn g o t (n + 1)) :
    ∃ v, ReachesIn g o v n ∧ stepOK g v t := by
  cases h with
  | step hv hs => exact ⟨_, hv, hs⟩

/-- Neighbours produced by `getNeighbors` are in bounds. -/
theorem getNeighbors_bounds {col row w h : Int} {p : Pos}
    (hp : p ∈ getNeighbors col row w h) :
    0 ≤ p.col ∧ p.col < w ∧ 0 ≤ p.row ∧ p.row < h := by
  unfold getNeighbors at hp
  simp only [List.mem_filterMap] at hp
  obtain ⟨d, _, hd⟩ := hp
  by_cases hb : 0 ≤ col + d.1 ∧ col + d.1 < w ∧ 0 ≤ row + d.2 ∧ row + d.2 < h
  · rw [if_pos hb] at hd
    injection hd with hd2
    rw [← hd2]
    exact hb
  · rw [if_neg hb] at hd
    cases hd

/-- Membership in the in-bounds position set. -/
theorem mem_boundsFinset {g : Grid} {p : Pos} :
    p ∈ boundsFinset g ↔
      0 ≤ p.col ∧ p.col < g.gridWidth ∧ 0 ≤ p.row ∧ p.row < g.gridHeight := by
  unfold boundsFinset
  simp only [Finset.mem_image, Finset.mem_product, Finset.mem_Ico]
  constructor
  · rintro ⟨⟨a, b⟩, ⟨⟨h1, h2⟩, h3, h4⟩, rfl⟩
    exact ⟨h1, h2, h3, h4⟩
  · rintro ⟨h1, h2, h3, h4⟩
    exact ⟨(p.col, p.row), ⟨⟨h1, h2⟩, h3, h4⟩, rfl⟩

/-- Removing a fresh element from the unvisited count. -/
theorem sdiff_insert_card {S V : Finset Pos} {n : Pos} (hS : n ∈ S)
    (hV : n ∉ V) :
    (S \ insert n V).card + 1 = (S \ V).card := by
  have h1 : S \ insert n V = (S \ V).erase n := by
    ext x
    simp only [Finset.mem_sdiff, Finset.mem_erase, Finset.mem_insert]
    tauto
  rw [h1, Finset.card_erase_add_one]
  exact Finset.mem_sdiff.mpr ⟨hS, hV⟩

/-- Combined properties of the neighbour fold of the movement-range BFS:
visited only grows, grows only by listed neighbours, queue additions carry
cost `current.cost + 1` for fresh, step-reachable tiles, every step-eligible
neighbour ends visited, fresh visits have a queue addition, and one unvisited
in-bounds tile is consumed per addition. -/
theorem bfsVisit_fold (g : Grid) (current : QEntry) :
    ∀ (ns : List Pos) (V : Finset Pos) (adds : List QEntry)
      (V2 : Finset Pos) (adds2 : List QEntry),
      (∀ p ∈ ns, p ∈ getNeighbors current.col current.row g.gridWidth
        g.gridHeight) →
      ns.foldl (bfsVisit g current) (V, adds) = (V2, adds2) →
      V ⊆ V2 ∧
      (∀ p ∈ V2, p ∈ V ∨ p ∈ ns) ∧
      (∀ a ∈ adds, a ∈ adds2) ∧
      (∀ a ∈ adds2, a ∈ adds ∨ (a.cost = current.cost + 1 ∧ a.pos ∉ V ∧
        a.pos ∈ V2 ∧ stepOK g current.pos a.pos)) ∧
      (∀ u ∈ ns, stepOK g current.pos u → u ∈ V2) ∧
      (∀ p ∈ V2, p ∉ V → ∃ a ∈ adds2, a.pos = p) ∧
      ((boundsFinset g \ V2).card + adds2.length
        = (boundsFinset g \ V).card + adds.length) := by
  intro ns
  induction ns with
  | nil =>
      intro V adds V2 adds2 _ hfold
      injection hfold with h1 h2
      subst h1
      subst h2
      refine ⟨Finset.Subset.refl V, fun p hp => Or.inl hp,
        fun a ha => ha, fun a ha => Or.inl ha,
        fun u hu => absurd hu (List.not_mem_nil u),
        fun p hp hnp => absurd hp hnp, rfl⟩
  | cons n rest ih =>
      intro V adds V2 adds2 hmem hfold
      rw [List.foldl_cons] at hfold
      by_cases h1 : n ∈ V
      · rw [show bfsVisit g current (V, adds) n = (V, adds) from by
          unfold bfsVisit; rw [if_pos h1]] at hfold
        obtain ⟨c1, c2, c3, c4, c5, c6, c7⟩ :=
          ih V adds V2 adds2 (fun p hp => hmem p (List.mem_cons_of_mem n hp))
            hfold
        refine ⟨c1, ?_, c3, c4, ?_, c6, c7⟩
        · intro p hp
          rcases c2 p hp with h | h
          · exact Or.inl h
          · exact Or.inr (List.mem_cons_of_mem n h)
        · intro u hu hs
          rcases List.mem_cons.mp hu with rfl | hu2
          · exact c1 h1
          · exact c5 u hu2 hs
      · by_cases h2 : isWalkable g n.col n.row = false
        · rw [show bfsVisit g current (V, adds) n = (V, adds) from by
            unfold bfsVisit; rw [if_neg h1, if_pos h2]] at hfold
          obtain ⟨c1, c2, c3, c4, c5, c6, c7⟩ :=
            ih V adds V2 adds2
              (fun p hp => hmem p (List.mem_cons_of_mem n hp)) hfold
          refine ⟨c1, ?_, c3, c4, ?_, c6, c7⟩
          · intro p hp
            rcases c2 p hp with h | h
            · exact Or.inl h
            · exact Or.inr (List.mem_cons_of_mem n h)
          · intro u hu hs
            rcases List.mem_cons.mp hu with rfl | hu2
            · exact absurd hs.2.1 (by rw [h2]; exact Bool.false_ne_true)
            · exact c5 u hu2 hs
        · by_cases h3 : moveRangeDiagonalOK g current.pos
              (n.col - current.col) (n.row - current.row) = false
          · rw [show bfsVisit g current (V, adds) n = (V, adds) from by
              unfold bfsVisit; rw [if_neg h1, if_neg h2, if_pos h3]] at hfold
            obtain ⟨c1, c2, c3, c4, c5, c6, c7⟩ :=
              ih V adds V2 adds2
                (fun p hp => hmem p (List.mem_cons_of_mem n hp)) hfold
            refine ⟨c1, ?_, c3, c4, ?_, c6, c7⟩
            · intro p hp
              rcases c2 p hp with h | h
              · exact Or.inl h
              · exact Or.inr (List.mem_cons_of_mem n h)
            · intro u hu hs
              rcases List.mem_cons.mp hu with rfl | hu2
              · have h3b : moveRangeDiagonalOK g current.pos
                    (u.col - current.pos.col) (u.row - current.pos.row)
                    = false := h3
                exact absurd (h3b.symm.trans hs.2.2) Bool.false_ne_true
              · exact c5 u hu2 hs
          · rw [show bfsVisit g current (V, adds) n
                = (insert n V, adds ++ [⟨n.col, n.row, current.cost + 1⟩])
                from by
              unfold bfsVisit; rw [if_neg h1, if_neg h2, if_neg h3]] at hfold
            obtain ⟨c1, c2, c3, c4, c5, c6, c7⟩ :=
              ih (insert n V) (adds ++ [⟨n.col, n.row, current.cost + 1⟩])
                V2 adds2 (fun p hp => hmem p (List.mem_cons_of_mem n hp))
                hfold
            have hnmem : n ∈ getNeighbors current.col current.row g.gridWidth
                g.gridHeight := hmem n (List.mem_cons_self n rest)
            have hnpos : (⟨n.col, n.row⟩ : Pos) = n := rfl
            have hstep : stepOK g current.pos n := by
              refine ⟨?_, ?_, ?_⟩
              · exact hnmem
              · exact eq_true_of_ne_false h2
              · exact eq_true_of_ne_false h3
            have hsubV : V ⊆ insert n V := Finset.subset_insert n V
            refine ⟨hsubV.trans c1, ?_, ?_, ?_, ?_, ?_, ?_⟩
            · intro p hp
              rcases c2 p hp with h | h
              · rcases Finset.mem_insert.mp h with rfl | h
                · exact Or.inr (List.mem_cons_self p rest)
                · exact Or.inl h
              · exact Or.inr (List.mem_cons_of_mem n h)
            · intro a ha
              exact c3 a (List.mem_append_left _ ha)
            · intro a ha
              rcases c4 a ha with h | h
              · rcases List.mem_append.mp h with h | h
                · exact Or.inl h
                · rcases List.mem_singleton.mp h with rfl
                  refine Or.inr ⟨rfl, h1, c1 (Finset.mem_insert_self n V),
                    ?_⟩
                  rw [show QEntry.pos ⟨n.col, n.row, current.cost + 1⟩
                    = n from rfl]
                  exact hstep
              · rcases h with ⟨ha1, ha2, ha3, ha4⟩
                exact Or.inr ⟨ha1, fun hav => ha2 (Finset.mem_insert_of_mem
                  hav), ha3, ha4⟩
            · intro u hu hs
              rcases List.mem_cons.mp hu with rfl | hu2
              · exact c1 (Finset.mem_insert_self u V)
              · exact c5 u hu2 hs
            · intro p hp hnp
              by_cases hpn : p = n
              · subst hpn
                refine ⟨⟨p.col, p.row, current.cost + 1⟩, ?_, rfl⟩
                exact c3 _ (List.mem_append_right _
                  (List.mem_singleton_self _))
              · have hp2 : p ∉ insert n V := by
                  intro hin
                  rcases Finset.mem_insert.mp hin with h | h
                  · exact hpn h
                  · exact hnp h
                exact c6 p hp hp2
            · have hS : n ∈ boundsFinset g := by
                rw [mem_boundsFinset]
                exact getNeighbors_bounds hnmem
              have hcard := sdiff_insert_card hS h1
              rw [c7, List.length_append, List.length_singleton]
              omega

/-- When every queue entry already has cost `d + 1`, the BFS invariant
advances its frontier depth to `d + 1`. -/
theorem bfsInv_advance {g : Grid} {o : Pos} {M : ℕ} {Q : List QEntry}
    {V : Finset Pos} {d : ℕ} (hne : Q ≠ [])
    (hall : ∀ e ∈ Q, e.cost = d + 1) (hinv : BfsInv g o M Q V d) :
    BfsInv g o M Q V (d + 1) := by
  obtain ⟨hshape, hq, hreach, hclosure, ho, hbound⟩ := hinv
  have hdM : d < M := by
    obtain ⟨e, he⟩ := List.exists_mem_of_ne_nil Q hne
    have hc1 := (hq e he).1
    have hc2 := hall e he
    omega
  refine ⟨⟨Q, [], by simp, hall, by simp⟩, hq, ?_, hclosure, ho, hbound⟩
  intro t n hr hn
  rcases Nat.lt_or_ge n (d + 1) with h | h
  · exact hreach t n hr (by omega)
  · have hn2 : n = d + 1 := by omega
    subst hn2
    obtain ⟨v, hv, hs⟩ := reachesIn_succ hr
    have hvV : v ∈ V := hreach v d hv le_rfl
    have hvQ : ∀ e ∈ Q, e.pos ≠ v := by
      intro e he hev
      have hmin := (hq e he).2.2.2 d (by rw [hev]; exact hv)
      have hceq := hall e he
      omega
    exact hclosure v hvV hvQ t hs ⟨d, hdM, hv⟩

/-- With an empty queue, every tile reachable within the allowance has been
visited. -/
theorem bfsInv_empty_complete {g : Grid} {o : Pos} {M : ℕ} {V : Finset Pos}
    {d : ℕ} (hinv : BfsInv g o M [] V d) :
    ∀ t n, ReachesIn g o t n → n ≤ M → t ∈ V := by
  obtain ⟨-, -, -, hclosure, ho, -⟩ := hinv
  intro t n h
  induction h with
  | refl => intro _; exact ho
  | step hv hs ih =>
      rename_i a b k
      intro hle
      have hav := ih (by omega)
      exact hclosure a hav
        (fun e he => absurd he (List.not_mem_nil e)) b hs ⟨k, by omega, hv⟩

/-- The head of an invariant queue can be brought to the frontier depth. -/
theorem bfsInv_head_norm {g : Grid} {o : Pos} {M : ℕ} {current : QEntry}
    {rest : List QEntry} {V : Finset Pos} {d : ℕ}
    (hinv : BfsInv g o M (current :: rest) V d) :
    ∃ d2, BfsInv g o M (current :: rest) V d2 ∧ current.cost = d2 := by
  obtain ⟨Q1, Q2, hsplit, h1, h2⟩ := hinv.1
  cases Q1 with
  | nil =>
      simp only [List.nil_append] at hsplit
      rw [← hsplit] at h2
      exact ⟨d + 1, bfsInv_advance (List.cons_ne_nil current rest) h2 hinv,
        h2 current (List.mem_cons_self current rest)⟩
  | cons c Q1t =>
      injection hsplit with hA hB
      refine ⟨d, hinv, ?_⟩
      rw [hA]
      exact h1 c (List.mem_cons_self c Q1t)

/-- Common helper: the tail of an invariant queue with a depth-`d` head still
splits into a depth-`d` prefix and depth-`d+1` suffix. -/
theorem bfsInv_tail_shape {g : Grid} {o : Pos} {M : ℕ} {current : QEntry}
    {rest : List QEntry} {V : Finset Pos} {d : ℕ}
    (hinv : BfsInv g o M (current :: rest) V d)
    (hcost : current.cost = d) :
    ∃ R1 R2, rest = R1 ++ R2 ∧ (∀ e ∈ R1, e.cost = d) ∧
      (∀ e ∈ R2, e.cost = d + 1) := by
  obtain ⟨Q1, Q2, hsplit, h1, h2⟩ := hinv.1
  cases Q1 with
  | nil =>
      simp only [List.nil_append] at hsplit
      have hmem2 : current ∈ Q2 := by
        rw [← hsplit]
        exact List.mem_cons_self current rest
      have hcontr := h2 current hmem2
      omega
  | cons c Q1t =>
      injection hsplit with hA hB
      exact ⟨Q1t, Q2, hB,
        fun e he => h1 e (List.mem_cons_of_mem c he), h2⟩

/-- Popping a frontier entry at the movement limit preserves the BFS
invariant without expansion. -/
theorem bfsInv_pop_no_expand {g : Grid} {o : Pos} {M : ℕ} {current : QEntry}
    {rest : List QEntry} {V : Finset Pos} {d : ℕ}
    (hinv : BfsInv g o M (current :: rest) V d)
    (hcost : current.cost = d) (hM : M ≤ current.cost) :
    BfsInv g o M rest V d := by
  have hshape := bfsInv_tail_shape hinv hcost
  obtain ⟨-, hq, hreach, hclosure, ho, hbound⟩ := hinv
  have hcur := hq current (List.mem_cons_self current rest)
  refine ⟨hshape, fun e he => hq e (List.mem_cons_of_mem current he),
    hreach, ?_, ho, hbound⟩
  intro v hv hvrest u hs hm
  by_cases hvc : current.pos = v
  · obtain ⟨m, hmM, hrv⟩ := hm
    have hmin := hcur.2.2.2 m (by rw [hvc]; exact hrv)
    omega
  · refine hclosure v hv ?_ u hs hm
    intro e he
    rcases List.mem_cons.mp he with rfl | he2
    · exact hvc
    · exact hvrest e he2

/-- Popping and expanding a frontier entry strictly below the movement limit
preserves the BFS invariant; the queue additions sit one step deeper, fresh
visits all gained queue entries, and the unvisited in-bounds count pays for
the additions. -/
theorem bfsInv_pop_expand {g : Grid} {o : Pos} {M : ℕ} {current : QEntry}
    {rest : List QEntry} {V V2 : Finset Pos} {adds : List QEntry} {d : ℕ}
    (hinv : BfsInv g o M (current :: rest) V d)
    (hcost : current.cost = d) (hM : current.cost < M)
    (hfold : (getNeighbors current.col current.row g.gridWidth
      g.gridHeight).foldl (bfsVisit g current) (V, []) = (V2, adds)) :
    BfsInv g o M (rest ++ adds) V2 d ∧
    (∀ a ∈ adds, a.cost = d + 1) ∧
    (∀ p ∈ V2, p ∉ V → ∃ a ∈ adds, a.pos = p) ∧
    ((boundsFinset g \ V2).card + adds.length = (boundsFinset g \ V).card) ∧
    V ⊆ V2 := by
  have hshape := bfsInv_tail_shape hinv hcost
  obtain ⟨c1, c2, c3, c4, c5, c6, c7⟩ := bfsVisit_fold g current _ V [] V2
    adds (fun p hp => hp) hfold
  obtain ⟨-, hq, hreach, hclosure, ho, hbound⟩ := hinv
  have hcur := hq current (List.mem_cons_self current rest)
  have haddprops : ∀ a ∈ adds, a.cost = current.cost + 1 ∧ a.pos ∉ V ∧
      a.pos ∈ V2 ∧ stepOK g current.pos a.pos := by
    intro a ha
    rcases c4 a ha with h | h
    · exact absurd h (List.not_mem_nil a)
    · exact h
  have haddcost : ∀ a ∈ adds, a.cost = d + 1 := by
    intro a ha
    rw [(haddprops a ha).1, hcost]
  obtain ⟨R1, R2, hR, hR1, hR2⟩ := hshape
  have hqnew : ∀ e ∈ rest ++ adds, e.cost ≤ M ∧ e.pos ∈ V2 ∧
      ReachesIn g o e.pos e.cost ∧
      (∀ m, ReachesIn g o e.pos m → e.cost ≤ m) := by
    intro e he
    rcases List.mem_append.mp he with he2 | he2
    · have hold := hq e (List.mem_cons_of_mem current he2)
      exact ⟨hold.1, c1 hold.2.1, hold.2.2⟩
    · obtain ⟨ha1, ha2, ha3, ha4⟩ := haddprops e he2
      have hre : ReachesIn g o e.pos (current.cost + 1) :=
        ReachesIn.step hcur.2.2.1 ha4
      refine ⟨by omega, ha3, by rw [ha1]; exact hre, ?_⟩
      intro m hm
      by_contra hlt
      push_neg at hlt
      rw [ha1] at hlt
      have hmd : m ≤ d := by omega
      exact ha2 (hreach e.pos m hm hmd)
  refine ⟨⟨⟨R1, R2 ++ adds, by rw [hR, List.append_assoc], hR1, ?_⟩,
      hqnew, ?_, ?_, c1 ho, ?_⟩, haddcost, c6, ?_, c1⟩
  · intro e he
    rcases List.mem_append.mp he with he2 | he2
    · exact hR2 e he2
    · exact haddcost e he2
  · intro t n hr hn
    exact c1 (hreach t n hr hn)
  · intro v hv hvq u hs hm
    by_cases hvV : v ∈ V
    · by_cases hvc : v = current.pos
      · subst hvc
        exact c5 u hs.1 hs
      · refine c1 (hclosure v hvV ?_ u hs hm)
        intro e he
        rcases List.mem_cons.mp he with rfl | he2
        · exact fun hev => hvc hev.symm
        · exact hvq e (List.mem_append_left adds he2)
    · obtain ⟨a, ha, hap⟩ := c6 v hv hvV
      exact absurd hap (hvq a (List.mem_append_right rest ha))
  · intro p hp
    rcases c2 p hp with h | h
    · exact hbound p h
    · exact Or.inr (by rw [mem_boundsFinset]; exact getNeighbors_bounds h)
  · have := c7
    simpa using this

/-- Main correctness of the fuel-indexed BFS loop: under the invariant and
with fuel exceeding the remaining work, every output entry carries its true
shortest-path cost within the allowance, every queued positive-cost entry is
eventually output, and every reachable-within-allowance tile not yet visited
ends up in the output. -/
theorem bfsAux_spec (g : Grid) (o : Pos) (M : ℕ) :
    ∀ (fuel : ℕ) (Q : List QEntry) (V : Finset Pos) (d : ℕ),
      BfsInv g o M Q V d →
      Q.length + (boundsFinset g \ V).card < fuel →
      (∀ e ∈ bfsAux g M fuel Q V, 0 < e.cost ∧ e.cost ≤ M ∧
        ReachesIn g o e.pos e.cost ∧
        (∀ m, ReachesIn g o e.pos m → e.cost ≤ m)) ∧
      (∀ e ∈ Q, 0 < e.cost → e ∈ bfsAux g M fuel Q V) ∧
      (∀ t n, ReachesIn g o t n → n ≤ M → t ∉ V →
        ∃ e ∈ bfsAux g M fuel Q V, e.pos = t) := by
  intro fuel
  induction fuel with
  | zero =>
      intro Q V d _ hfuel
      omega
  | succ fuel ih =>
      intro Q V d hinv hfuel
      cases Q with
      | nil =>
          refine ⟨?_, ?_, ?_⟩
          · intro e he
            simp only [bfsAux] at he
            exact absurd he (List.not_mem_nil e)
          · intro e he
            exact absurd he (List.not_mem_nil e)
          · intro t n hr hn ht
            exact absurd (bfsInv_empty_complete hinv t n hr hn) ht
      | cons current rest =>
          obtain ⟨d2, hinv2, hcost⟩ := bfsInv_head_norm hinv
          have hcur := hinv2.2.1 current (List.mem_cons_self current rest)
          by_cases hMle : M ≤ current.cost
          · have hstep : bfsAux g M (fuel + 1) (current :: rest) V
                = if 0 < current.cost then
                    current :: bfsAux g M fuel rest V
                  else bfsAux g M fuel rest V := by
              simp only [bfsAux, if_pos hMle]
            have hinv3 := bfsInv_pop_no_expand hinv2 hcost hMle
            have hfuel3 : rest.length + (boundsFinset g \ V).card < fuel := by
              simp only [List.length_cons] at hfuel
              omega
            obtain ⟨a1, a2, a3⟩ := ih rest V d2 hinv3 hfuel3
            refine ⟨?_, ?_, ?_⟩
            · intro e he
              rw [hstep] at he
              by_cases hpos : 0 < current.cost
              · rw [if_pos hpos] at he
                rcases List.mem_cons.mp he with rfl | he2
                · exact ⟨hpos, hcur.1, hcur.2.2⟩
                · exact a1 e he2
              · rw [if_neg hpos] at he
                exact a1 e he
            · intro e he hepos
              rw [hstep]
              rcases List.mem_cons.mp he with rfl | he2
              · rw [if_pos hepos]
                exact List.mem_cons_self e _
              · have hmem := a2 e he2 hepos
                by_cases hpos : 0 < current.cost
                · rw [if_pos hpos]
                  exact List.mem_cons_of_mem current hmem
                · rw [if_neg hpos]
                  exact hmem
            · intro t n hr hn ht
              obtain ⟨e, he, hep⟩ := a3 t n hr hn ht
              rw [hstep]
              by_cases hpos : 0 < current.cost
              · rw [if_pos hpos]
                exact ⟨e, List.mem_cons_of_mem current he, hep⟩
              · rw [if_neg hpos]
                exact ⟨e, he, hep⟩
          · push_neg at hMle
            obtain ⟨hinv3, haddcost, hfresh, hcard, hVsub⟩ :=
              bfsInv_pop_expand hinv2 hcost hMle rfl
            have hstep : bfsAux g M (fuel + 1) (current :: rest) V
                = if 0 < current.cost then
                    current :: bfsAux g M fuel
                      (rest ++ ((getNeighbors current.col current.row
                        g.gridWidth g.gridHeight).foldl (bfsVisit g current)
                        (V, [])).2)
                      ((getNeighbors current.col current.row g.gridWidth
                        g.gridHeight).foldl (bfsVisit g current) (V, [])).1
                  else bfsAux g M fuel
                      (rest ++ ((getNeighbors current.col current.row
                        g.gridWidth g.gridHeight).foldl (bfsVisit g current)
                        (V, [])).2)
                      ((getNeighbors current.col current.row g.gridWidth
                        g.gridHeight).foldl (bfsVisit g current) (V, [])).1
                := by
              simp only [bfsAux, if_neg (not_le.mpr hMle)]
            have hfuel3 : (rest ++ ((getNeighbors current.col current.row
                g.gridWidth g.gridHeight).foldl (bfsVisit g current)
                (V, [])).2).length + (boundsFinset g \
                ((getNeighbors current.col current.row g.gridWidth
                g.gridHeight).foldl (bfsVisit g current) (V, [])).1).card
                < fuel := by
              rw [List.length_append]
              simp only [List.length_cons] at hfuel
              omega
            obtain ⟨a1, a2, a3⟩ := ih _ _ d2 hinv3 hfuel3
            refine ⟨?_, ?_, ?_⟩
            · intro e he
              rw [hstep] at he
              by_cases hpos : 0 < current.cost
              · rw [if_pos hpos] at he
                rcases List.mem_cons.mp he with rfl | he2
                · exact ⟨hpos, hcur.1, hcur.2.2⟩
                · exact a1 e he2
              · rw [if_neg hpos] at he
                exact a1 e he
            · intro e he hepos
              rw [hstep]
              rcases List.mem_cons.mp he with rfl | he2
              · rw [if_pos hepos]
                exact List.mem_cons_self e _
              · have hmem := a2 e (List.mem_append_left _ he2) hepos
                by_cases hpos : 0 < current.cost
                · rw [if_pos hpos]
                  exact List.mem_cons_of_mem current hmem
                · rw [if_neg hpos]
                  exact hmem
            · intro t n hr hn ht
              have hout : ∃ e ∈ bfsAux g M fuel
                  (rest ++ ((getNeighbors current.col current.row
                    g.gridWidth g.gridHeight).foldl (bfsVisit g current)
                    (V, [])).2)
                  ((getNeighbors current.col current.row g.gridWidth
                    g.gridHeight).foldl (bfsVisit g current) (V, [])).1,
                  e.pos = t := by
                by_cases htV2 : t ∈ ((getNeighbors current.col current.row
                    g.gridWidth g.gridHeight).foldl (bfsVisit g current)
                    (V, [])).1
                · obtain ⟨a, ha, hap⟩ := hfresh t htV2 ht
                  have hapos : 0 < a.cost := by
                    have := haddcost a ha
                    omega
                  exact ⟨a, a2 a (List.mem_append_right rest ha) hapos, hap⟩
                · exact a3 t n hr hn htV2
              obtain ⟨e, he, hep⟩ := hout
              rw [hstep]
              by_cases hpos : 0 < current.cost
              · rw [if_pos hpos]
                exact ⟨e, List.mem_cons_of_mem current he, hep⟩
              · rw [if_neg hpos]
                exact ⟨e, he, hep⟩

/-- C3 (amended): every entry returned by `getMovementRange` reports the true
shortest 8-directional path cost from the origin under the walkability and
diagonal corner-cutting rules, with positive cost at most the allowance, and
no tile other than the origin itself whose true cost is at most the
allowance is omitted from the result. -/
theorem getMovementRange_optimal_complete (g : Grid) (sc sr : Int) (M : ℕ) :
    (∀ e ∈ getMovementRange g sc sr M, 0 < e.cost ∧ e.cost ≤ M ∧
      ReachesIn g ⟨sc, sr⟩ e.pos e.cost ∧
      (∀ m, ReachesIn g ⟨sc, sr⟩ e.pos m → e.cost ≤ m)) ∧
    (∀ t n, ReachesIn g ⟨sc, sr⟩ t n → n ≤ M → t ≠ ⟨sc, sr⟩ →
      ∃ e ∈ getMovementRange g sc sr M, e.pos = t) := by
  have hinv : BfsInv g ⟨sc, sr⟩ M [⟨sc, sr, 0⟩] {⟨sc, sr⟩} 0 := by
    refine ⟨⟨[⟨sc, sr, 0⟩], [], by simp, ?_, by simp⟩, ?_, ?_, ?_, ?_, ?_⟩
    · intro e he
      rw [List.mem_singleton.mp he]
    · intro e he
      rw [List.mem_singleton.mp he]
      exact ⟨Nat.zero_le M, Finset.mem_singleton_self _, ReachesIn.refl,
        fun m _ => Nat.zero_le m⟩
    · intro t n hr hn
      have hn0 : n = 0 := Nat.le_zero.mp hn
      subst hn0
      rw [reachesIn_zero hr]
      exact Finset.mem_singleton_self _
    · intro v hv hvq u hs hm
      exact absurd (Finset.mem_singleton.mp hv).symm
        (hvq ⟨sc, sr, 0⟩ (List.mem_singleton_self _))
    · exact Finset.mem_singleton_self _
    · intro v hv
      exact Or.inl (Finset.mem_singleton.mp hv)
  have hfuel : ([(⟨sc, sr, 0⟩ : QEntry)]).length +
      (boundsFinset g \ {(⟨sc, sr⟩ : Pos)}).card
      < (boundsFinset g).card + 2 := by
    have hle : (boundsFinset g \ {(⟨sc, sr⟩ : Pos)}).card
        ≤ (boundsFinset g).card :=
      Finset.card_le_card Finset.sdiff_subset
    simp only [List.length_singleton]
    omega
  obtain ⟨a1, a2, a3⟩ := bfsAux_spec g ⟨sc, sr⟩ M ((boundsFinset g).card + 2)
    [⟨sc, sr, 0⟩] {⟨sc, sr⟩} 0 hinv hfuel
  refine ⟨a1, ?_⟩
  intro t n hr hn ht
  exact a3 t n hr hn (fun hmem => ht (Finset.mem_singleton.mp hmem))

/-- C3 counterexample: on an open 2 by 1 grid with allowance 2 the origin
(0,0) has true cost 0 — within the allowance — yet `getMovementRange`
returns only the other tile, omitting the origin from the result. -/
theorem getMovementRange_origin_omitted :
    ReachesIn (emptyGrid 2 1) ⟨0, 0⟩ ⟨0, 0⟩ 0 ∧
    getMovementRange (emptyGrid 2 1) 0 0 2 = [⟨1, 0, 1⟩] :=
  ⟨ReachesIn.refl, by decide⟩

/-- C3 witness: on an open 3 by 1 corridor with allowance 1 the tile (1,0),
reachable in one step, appears in the movement range. -/
theorem getMovementRange_optimal_complete_witness :
    ∃ e ∈ getMovementRange (emptyGrid 3 1) 0 0 1,
      e.pos = (⟨1, 0⟩ : Pos) :=
  (getMovementRange_optimal_complete (emptyGrid 3 1) 0 0 1).2 ⟨1, 0⟩ 1
    (ReachesIn.step ReachesIn.refl (by decide)) (by decide) (by decide)

end WWA
